import Mathlib

/-!
Verification of the responsive code formatting engine
(`static/responsive-code.js`): a shallow embedding of the segment model,
break-point scanner, line breaker, indent analyzer and block formatter,
with theorems checking the specification's claims about them.

Text is modelled as `List Char`; JavaScript numbers used as depths,
columns and break offsets are modelled as `Int` (`-1` sentinels appear in
the source), character positions as `Nat`.
-/

/-- A segment: plain text plus its wrapping HTML open/close tag strings
(source: the `{ text, open, close }` records built by `extractLines`). -/
structure Seg where
  text : List Char
  openTag : String
  closeTag : String
deriving DecidableEq, Repr

/-- A line is an ordered list of segments. -/
abbrev Line := List Seg

/-- `plain(line)`: concatenation of the segments' texts. -/
def plain (line : Line) : List Char :=
  (line.map Seg.text).flatten

/-- JavaScript whitespace as matched by the regex class `\s`
(restricted to the characters that can occur in a code line). -/
def jsWS (c : Char) : Bool :=
  c == ' ' || c == '\t' || c == '\n' || c == '\r' || c == '\x0b' || c == '\x0c'

/-- `text.search(/\S/)`: index of the first non-whitespace character,
`-1` when there is none. -/
def searchNonWS (s : List Char) : Int :=
  match s.findIdx? (fun c => !(jsWS c)) with
  | some i => (i : Int)
  | none => -1

/-- `leadingSpaces(line)`: `Math.max(0, plain(line).search(/\S/))`. -/
def leadingSpaces (line : Line) : Nat :=
  (max (searchNonWS (plain line)) 0).toNat

/-- `stripLeading(line)`: drop leading space characters; a segment whose
text is entirely spaces is dropped wholly, the first segment with a
non-space keeps its markup with its leading spaces cut. -/
def stripLeading : Line → Line
  | [] => []
  | seg :: rest =>
    let t := seg.text.dropWhile (fun c => c == ' ')
    if t.isEmpty then stripLeading rest
    else ⟨t, seg.openTag, seg.closeTag⟩ :: rest

/-- Inner loop of `removeNSpaces`: strip up to `rem` leading spaces,
consuming across segment boundaries; a segment emptied by the cut is kept
only when it has an open tag. -/
def removeNSpacesGo : Line → Nat → Line
  | [], _ => []
  | seg :: rest, rem =>
    if 0 < rem then
      let cut := min rem (seg.text.takeWhile (fun c => c == ' ')).length
      let t := seg.text.drop cut
      let tail := removeNSpacesGo rest (rem - cut)
      if t.length > 0 || seg.openTag ≠ "" then ⟨t, seg.openTag, seg.closeTag⟩ :: tail
      else tail
    else seg :: removeNSpacesGo rest 0

/-- `removeNSpaces(line, n)`. -/
def removeNSpaces (line : Line) (n : Nat) : Line :=
  if n = 0 then line else removeNSpacesGo line n

/-- Inner loop of `splitAt`: `count` is the number of characters already
committed to the `before` half. -/
def splitGo (pos : Nat) : Line → Nat → Line × Line
  | [], _ => ([], [])
  | seg :: rest, count =>
    if count + seg.text.length ≤ pos then
      if count + seg.text.length = pos then ([seg], rest)
      else
        let pr := splitGo pos rest (count + seg.text.length)
        (seg :: pr.1, pr.2)
    else
      let k := pos - count
      let b : Seg := ⟨seg.text.take k, seg.openTag, seg.closeTag⟩
      if k < seg.text.length then
        ([b], ⟨seg.text.drop k, seg.openTag, seg.closeTag⟩ :: rest)
      else ([b], rest)

/-- `splitAt(line, pos)`: cut a line into before/after halves at a
character offset, splitting the straddling segment. -/
def splitAt (line : Line) (pos : Nat) : Line × Line :=
  splitGo pos line 0

/-- `prependPad(line, n)`: strip existing leading spaces and prepend an
unstyled pad of `n` spaces. -/
def prependPad (line : Line) (n : Nat) : Line :=
  ⟨List.replicate n ' ', "", ""⟩ :: stripLeading line

/- ── Language tables ─────────────────────────────────────────────────── -/

/-- Break rule mode: break after or before the pattern. -/
inductive Mode where
  | after : Mode
  | before : Mode
deriving DecidableEq, Repr

/-- A break rule `{ pat, mode, sep }`. -/
structure Rule where
  pat : List Char
  mode : Mode
  sep : Bool
deriving DecidableEq, Repr

/-- `SKIP_LANGS`. -/
def SKIP_LANGS (lang : String) : Bool :=
  lang == "asm" || lang == "nasm" || lang == "gas"

/-- `SPACE_BREAK_LANGS`. -/
def SPACE_BREAK_LANGS (lang : String) : Bool :=
  lang == "bash" || lang == "dockerfile" || lang == "nix"

/-- `BACKSLASH_LANGS`. -/
def BACKSLASH_LANGS (lang : String) : Bool :=
  lang == "bash" || lang == "dockerfile"

/-- `OPENERS`: maps an opening bracket to its closer. -/
def OPENERS (c : Char) : Option Char :=
  if c = '(' then some ')'
  else if c = '[' then some ']'
  else if c = '{' then some '}'
  else none

/-- `CLOSERS`: maps a closing bracket to its opener. -/
def CLOSERS (c : Char) : Option Char :=
  if c = ')' then some '('
  else if c = ']' then some '['
  else if c = '}' then some '{'
  else none

/-- The `c_like` rule group. -/
def c_like : List Rule :=
  [⟨['{'], Mode.after, false⟩,
   ⟨['}'], Mode.before, false⟩,
   ⟨[' ', '=', ' '], Mode.after, false⟩,
   ⟨[' ', '|', '|', ' '], Mode.before, false⟩,
   ⟨[' ', '&', '&', ' '], Mode.before, false⟩]

/-- `COMMON_RULES`. -/
def COMMON_RULES : List Rule :=
  [⟨[',', ' '], Mode.after, true⟩,
   ⟨[';', ' '], Mode.after, true⟩,
   ⟨['('], Mode.after, false⟩,
   ⟨[')'], Mode.before, false⟩]

/-- `RULES` lookup (with the `COMMON_RULES` default for unknown keys). -/
def langRules (lang : String) : List Rule :=
  if lang == "c" then
    c_like ++
      [⟨[' ', '<', '<', ' '], Mode.before, false⟩,
       ⟨[' ', '>', '>', ' '], Mode.before, false⟩,
       ⟨['-', '>'], Mode.before, false⟩] ++ COMMON_RULES
  else if lang == "cpp" then
    c_like ++
      [⟨[' ', '<', '<', ' '], Mode.before, false⟩,
       ⟨[' ', '>', '>', ' '], Mode.before, false⟩,
       ⟨['-', '>'], Mode.before, false⟩,
       ⟨[':', ':'], Mode.before, false⟩] ++ COMMON_RULES
  else if lang == "h" then c_like ++ COMMON_RULES
  else if lang == "cmake" then
    [⟨[' ', '-'], Mode.before, true⟩,
     ⟨[' ', '\"'], Mode.before, true⟩] ++ COMMON_RULES
  else if lang == "ld" then
    [⟨[',', ' '], Mode.before, true⟩,
     ⟨[':', ' '], Mode.after, false⟩,
     ⟨[' ', '>', ' '], Mode.before, false⟩] ++ COMMON_RULES
  else COMMON_RULES

/-- `SPACE_RULES`: single space, break before, argument separator. -/
def SPACE_RULES : List Rule :=
  [⟨[' '], Mode.before, true⟩]

/-- Rule table selection in `scanChunk`: space-delimited languages use
`SPACE_RULES`, others their `RULES` entry or `COMMON_RULES`. -/
def rulesFor (lang : String) : List Rule :=
  if SPACE_BREAK_LANGS lang then SPACE_RULES else langRules lang

/- ── Bracket helpers ─────────────────────────────────────────────────── -/

/-- Loop of `singleArgContainer` from the opening bracket onward. -/
def singleArgLoop (o c : Char) : List Char → Int → Bool
  | [], _ => true
  | x :: rest, depth =>
    if x = o then singleArgLoop o c rest (depth + 1)
    else if x = c then
      (if depth - 1 = 0 then true else singleArgLoop o c rest (depth - 1))
    else if x = ',' ∧ depth = 1 then false
    else singleArgLoop o c rest depth

/-- `singleArgContainer(text, openPos)`: true when the container opened at
`openPos` has no comma at depth 1 (unclosed counts as single-argument). -/
def singleArgContainer (text : List Char) (openPos : Nat) : Bool :=
  match text.get? openPos with
  | none => false
  | some o =>
    match OPENERS o with
    | none => false
    | some c => singleArgLoop o c (text.drop openPos) 0

/-- Backward loop of `findMatchingOpen` (index counts down from the
closer). -/
def fmoGo (text : List Char) (openC closeC : Char) : Nat → Int → Int
  | 0, depth =>
    (match text.get? 0 with
     | some x =>
       if x = closeC then -1
       else if x = openC then (if depth - 1 = 0 then 0 else -1)
       else -1
     | none => -1)
  | i + 1, depth =>
    (match text.get? (i + 1) with
     | some x =>
       if x = closeC then fmoGo text openC closeC i (depth + 1)
       else if x = openC then
         (if depth - 1 = 0 then ((i : Int) + 1) else fmoGo text openC closeC i (depth - 1))
       else fmoGo text openC closeC i depth
     | none => fmoGo text openC closeC i depth)

/-- `findMatchingOpen(text, closePos)`: index of the matching opener for
the closer at `closePos`, or `-1`. -/
def findMatchingOpen (text : List Char) (closePos : Nat) : Int :=
  match text.get? closePos with
  | none => -1
  | some cl =>
    match CLOSERS cl with
    | none => -1
    | some op => fmoGo text op cl closePos 0

/- ── Chunk scanner ───────────────────────────────────────────────────── -/

/-- Bracket-depth state `{ depth, col }` threaded through the scanner. -/
structure PS where
  depth : Int
  col : Int
deriving DecidableEq, Repr

/-- Scanner result `{ bp, ps, hasArgSep }`. -/
structure ScanResult where
  bp : Int
  ps : PS
  hasArgSep : Bool
deriving DecidableEq, Repr

/-- Full scanner state for one left-to-right pass. -/
structure ScanState where
  inStr : Bool
  strChar : Char
  depth : Int
  col : Int
  best : Int
  bestPs : Option PS
  lastSep : Int
deriving DecidableEq, Repr

/-- Candidate break offset of a rule matching at position `i`. -/
def bpOf (r : Rule) (i : Nat) : Int :=
  match r.mode with
  | Mode.after => (i : Int) + r.pat.length
  | Mode.before => (i : Int)

/-- The rule fires the pre-decrement bracket state: break-before at a
single-character closer. -/
def closerBefore (r : Rule) : Bool :=
  (match r.mode with | Mode.before => true | Mode.after => false) &&
    r.pat.length == 1 && (CLOSERS (r.pat.headD ' ')).isSome

/-- The single-argument-container skip tests of the scanner's rule loop. -/
def ruleSkip (text : List Char) (i : Nat) (r : Rule) : Bool :=
  if r.pat.length = 1 ∧ (OPENERS (r.pat.headD ' ')).isSome then
    singleArgContainer text i
  else if r.pat.length = 1 ∧ (CLOSERS (r.pat.headD ' ')).isSome then
    let op := findMatchingOpen text i
    decide (0 ≤ op) && singleArgContainer text op.toNat
  else false

/-- One rule of the scanner's inner rule loop, updating the accumulator
`(best, bestPs, lastSepPos)`; `prevD`/`prevC` are the bracket state before
the current character's update, `d`/`cl` the state after. -/
def ruleStep (text : List Char) (floor maxCols : Int) (i : Nat)
    (prevD prevC d cl : Int) (acc : Int × Option PS × Int) (r : Rule) :
    Int × Option PS × Int :=
  if r.pat.isPrefixOf (text.drop i) then
    let bp := bpOf r i
    if bp ≤ floor ∨ (text.length : Int) ≤ bp ∨ ruleSkip text i r then acc
    else
      let ls := if r.sep ∧ acc.2.2 < bp then bp else acc.2.2
      if bp ≤ maxCols ∧ acc.1 < bp then
        (bp, some (if closerBefore r then ⟨prevD, prevC⟩ else ⟨d, cl⟩), ls)
      else (acc.1, acc.2.1, ls)
  else acc

/-- Bracket depth/column update for one character (`depth` clamped at 0
with `col` reset to `-1` on an unmatched closer). -/
def bracketUpd (s : ScanState) (i : Nat) (c : Char) : Int × Int :=
  if (OPENERS c).isSome then (s.depth + 1, (i : Int))
  else if (CLOSERS c).isSome then
    (if s.depth - 1 ≤ 0 then ((0 : Int), (-1 : Int)) else (s.depth - 1, s.col))
  else (s.depth, s.col)

/-- One character of the scanner's main loop: quote tracking, bracket
tracking, then the rule loop. -/
def scanStep (text : List Char) (rules : List Rule) (floor maxCols : Int)
    (s : ScanState) (i : Nat) : ScanState :=
  match text.get? i with
  | none => s
  | some c =>
    if s.inStr then
      if c = s.strChar ∧ (i = 0 ∨ text.get? (i - 1) ≠ some '\\') then
        { s with inStr := false }
      else s
    else if c = '\"' ∨ c = '\'' then { s with inStr := true, strChar := c }
    else
      let dc := bracketUpd s i c
      let acc := (rules.foldl (ruleStep text floor maxCols i s.depth s.col dc.1 dc.2)
        (s.best, s.bestPs, s.lastSep))
      { inStr := s.inStr, strChar := s.strChar, depth := dc.1, col := dc.2,
        best := acc.1, bestPs := acc.2.1, lastSep := acc.2.2 }

/-- Initial scanner state for a chunk, from the inherited bracket state. -/
def scanInit (initPs : PS) : ScanState :=
  ⟨false, ' ', initPs.depth, initPs.col, -1, none, -1⟩

/-- The scanner state after processing the first `n` characters. -/
def scanFold (text : List Char) (rules : List Rule) (floor maxCols : Int)
    (initPs : PS) (n : Nat) : ScanState :=
  (List.range n).foldl (scanStep text rules floor maxCols) (scanInit initPs)

/-- `scanChunk(text, lang, floor, maxCols, initPs)`: single pass over the
chunk; returns the rightmost eligible break within the budget, the bracket
state at it, and whether an argument separator occurs at or after it. -/
def scanChunk (text : List Char) (lang : String) (floor maxCols : Int)
    (initPs : PS) : Option ScanResult :=
  let s := scanFold text (rulesFor lang) floor maxCols initPs text.length
  if s.best < 0 then none
  else some ⟨s.best, s.bestPs.getD ⟨0, -1⟩, decide (s.best ≤ s.lastSep)⟩

/- ── Continuation indentation ────────────────────────────────────────── -/

/-- First index at which `pat` occurs in `text`, or `-1`
(`String.indexOf`). -/
def indexOfPat (text pat : List Char) : Int :=
  match (List.range (text.length + 1)).find? (fun i => pat.isPrefixOf (text.drop i)) with
  | some i => (i : Int)
  | none => -1

/-- `defaultContIndent(lang, text, indent)`: `ld` aligns past the first
colon-space, otherwise base indent plus `CONT_INDENT` (4). -/
def defaultContIndent (lang : String) (text : List Char) (indent : Nat) : Int :=
  if lang == "ld" then
    let colon := indexOfPat text [':', ' ']
    if 0 ≤ colon then colon + 2 else (indent : Int) + 4
  else (indent : Int) + 4

/-- `continuationIndent(ps, prevDepth, indent, fallback, maxCols)`: align
past the innermost open bracket, back to base after brackets close, else
the fallback; capped at `maxCols >> 1`. -/
def continuationIndent (ps : PS) (prevDepth : Int) (indent fallback : Int)
    (maxCols : Nat) : Int :=
  let ci :=
    if 0 < ps.depth ∧ 0 ≤ ps.col then ps.col + 1
    else if 0 < prevDepth ∧ ps.depth = 0 then indent
    else fallback
  min ci ((maxCols / 2 : Nat) : Int)

/-- The continuation indent actually used by `breakLine`: the
single-argument-container adjustment applied after `continuationIndent`. -/
def chooseCI (ps : PS) (prevDepth : Int) (indent fallback : Int)
    (cols : Nat) (hasArgSep : Bool) : Int :=
  let ci := continuationIndent ps prevDepth indent fallback cols
  if 0 < ps.depth ∧ fallback < ci ∧ hasArgSep = false then
    min fallback ((cols / 2 : Nat) : Int)
  else ci

/- ── Line breaker ────────────────────────────────────────────────────── -/

/-- Loop state of `breakLine`: current remainder, threaded bracket state,
previous remainder length, emitted pieces. -/
structure BrSt where
  rem : Line
  ps : PS
  prevLen : Nat
  pieces : List Line
deriving Repr

/-- One accepted break of `breakLine`'s loop body: split the remainder at
the scanner's offset, choose the continuation indent, re-pad the second
half as the new remainder and emit the first half. -/
def breakIter (cols : Nat) (indent : Nat) (fallbackCI : Int) (s : BrSt)
    (res : ScanResult) : BrSt :=
  let halves := splitAt s.rem res.bp.toNat
  let ci := chooseCI res.ps s.ps.depth (indent : Int) fallbackCI cols res.hasArgSep
  let rem := prependPad halves.2 ci.toNat
  ⟨rem, res.ps, (plain rem).length, s.pieces ++ [halves.1]⟩

/-- The `while (splits-- > 0)` loop of `breakLine`; `fuel` is the
remaining split budget (`MAX_SPLITS` initially).  The loop stops on a fit,
no eligible break, a break at the very end, or a non-shrinking remainder
(`newLen >= prevLen`, checked after the pieces are committed). -/
def breakLoop (cols : Nat) (lang : String) (budget : Int) (indent : Nat)
    (fallbackCI : Int) : Nat → BrSt → BrSt
  | 0, s => s
  | fuel + 1, s =>
    let rt := plain s.rem
    if (rt.length : Int) ≤ budget then s
    else
      match scanChunk rt lang (max (searchNonWS rt) 0) budget s.ps with
      | none => s
      | some res =>
        if (rt.length : Int) - 1 ≤ res.bp then s
        else
          let s1 := breakIter cols indent fallbackCI s res
          if s.prevLen ≤ s1.prevLen then s1
          else breakLoop cols lang budget indent fallbackCI fuel s1

/-- The effective column budget of `breakLine`: the column count less the
`BACKSLASH_RESERVE` for languages that render a trailing continuation
marker. -/
def effBudget (lang : String) (cols : Nat) : Int :=
  if BACKSLASH_LANGS lang then (cols : Int) - 2 else (cols : Int)

/-- `breakLine(line, cols, lang)` at the segment level: the chain of
emitted pieces (last piece is the final remainder), before HTML rendering
and before the trailing `" \\"` markers; `none` when the line is left
unchanged. -/
def breakLinePieces (line : Line) (cols : Nat) (lang : String) : Option (List Line) :=
  let text := plain line
  let budget := effBudget lang cols
  if (text.length : Int) ≤ budget then none
  else
    let indent := leadingSpaces line
    let fallbackCI := defaultContIndent lang text indent
    let s := breakLoop cols lang budget indent fallbackCI 10 ⟨line, ⟨0, -1⟩, text.length, []⟩
    if s.pieces.isEmpty then none else some (s.pieces ++ [s.rem])

/-- The continuation marker segment `" \\"` appended to non-final pieces
for `BACKSLASH_LANGS`. -/
def markerSeg : Seg := ⟨[' ', '\\'], "", ""⟩

/-- Attach continuation markers to all pieces but the last, as
`breakLine` does when rendering for a backslash language. -/
def withMarker (lang : String) (pieces : List Line) : List Line :=
  if BACKSLASH_LANGS lang then
    pieces.dropLast.map (fun p => p ++ [markerSeg]) ++ (pieces.getLast?).toList
  else pieces

/- ── Indent analysis ─────────────────────────────────────────────────── -/

/-- `detectIndentStep` loop: running minimum positive leading-space count
(`0` standing for "none seen yet"). -/
def detectLoop : List Line → Nat → Nat
  | [], step => step
  | l :: rest, step =>
    let sp := leadingSpaces l
    if 0 < sp ∧ (step = 0 ∨ sp < step) then detectLoop rest sp
    else detectLoop rest step

/-- `detectIndentStep(lines)`: minimum positive leading-space count, or
the default step 4. -/
def detectIndentStep (lines : List Line) : Nat :=
  let s := detectLoop lines 0
  if s = 0 then 4 else s

/-- `computeCompressedStep(step, cols)`. -/
def computeCompressedStep (step cols : Nat) : Nat :=
  if 55 ≤ cols ∨ step ≤ 2 then step
  else if cols < 35 then max (step >>> 1) 2
  else max (step - 1) 2

/-- `Math.round(sp * factor)` where the page-wide factor is the exact
fraction `num / den` (the browser carries it as a floating-point number;
for the factors the page computes the value is this rational):
`round(x) = floor(x + 1/2)`, and for nonnegative operands
`floor(sp * num / den + 1 / 2) = (2 * sp * num + den) / (2 * den)`. -/
def roundMulDiv (sp num den : Nat) : Nat :=
  (2 * sp * num + den) / (2 * den)

/-- Per-line state threaded through `applyIndentFactor`. -/
structure IndSt where
  prevOrig : Option (List Char)
  prevSp : Nat
  prevRemoved : Int
  prevAligned : Bool
  changed : Bool
deriving Repr

/-- `prevOrig !== null && sp < prevOrig.length && prevOrig[sp] !== ' '`. -/
def hasPrevContentAt (prevOrig : Option (List Char)) (sp : Nat) : Bool :=
  match prevOrig with
  | none => false
  | some po => decide (sp < po.length) && decide (po.getD sp ' ' ≠ ' ')

/-- The alignment classification of `applyIndentFactor`: previous line has
content at this column, and the jump exceeds the step or the previous line
was itself aligned. -/
def classifyAligned (st : IndSt) (step sp : Nat) : Bool :=
  hasPrevContentAt st.prevOrig sp &&
    ((decide (st.prevSp < sp) && decide (step < sp - st.prevSp)) ||
      (st.prevAligned && decide (st.prevSp ≤ sp)))

/-- Main loop of `applyIndentFactor`: remove `sp - round(sp * factor)`
leading spaces from structural lines, copy the previous line's absolute
removal on alignment-classified lines. -/
def applyIndentLoop (fnum fden : Nat) (step : Nat) : List Line → IndSt → List Line × Bool
  | [], st => ([], st.changed)
  | l :: rest, st =>
    let orig := plain l
    let sp := (max (searchNonWS orig) 0).toNat
    if 0 < sp then
      let aligned := classifyAligned st step sp
      let remove : Int :=
        if aligned then st.prevRemoved else (sp : Int) - (roundMulDiv sp fnum fden : Int)
      let l1 := if 0 < remove then removeNSpaces l remove.toNat else l
      let pr := applyIndentLoop fnum fden step rest
        ⟨some orig, sp, remove, aligned, st.changed || decide (0 < remove)⟩
      (l1 :: pr.1, pr.2)
    else
      let pr := applyIndentLoop fnum fden step rest ⟨some orig, sp, 0, false, st.changed⟩
      (l :: pr.1, pr.2)

/-- `applyIndentFactor(lines, factor)`: the re-indented lines and the
`changed` flag.  The block's step is re-detected exactly as in
`detectIndentStep` (the source inlines the identical computation). -/
def applyIndentFactor (lines : List Line) (fnum fden : Nat) : List Line × Bool :=
  applyIndentLoop fnum fden (detectIndentStep lines) lines ⟨none, 0, 0, false, false⟩

/- ── Block formatter ─────────────────────────────────────────────────── -/

/-- One code block: language tag, current content (as extracted lines) and
the lazily created `data-original` snapshot. -/
structure Block where
  lang : String
  lines : List Line
  original : Option (List Line)
deriving DecidableEq, Repr

/-- The line-level work of `formatBlock`: indent compression followed by
per-line breaking; returns the `changed` flag and the output lines. -/
def formatLines (lang : String) (cols : Nat) (fnum fden : Nat) (lines : List Line) :
    Bool × List Line :=
  let c1 := if fnum < fden then applyIndentFactor lines fnum fden else (lines, false)
  let broken := c1.1.map (fun l => (l, breakLinePieces l cols lang))
  let changed := c1.2 || broken.any (fun p => p.2.isSome)
  (changed,
    broken.flatMap (fun p => match p.2 with
      | some ps => withMarker lang ps
      | none => [p.1]))

/-- Structural model of `String.toLowerCase` (`.toLower` of the standard
library is compiled by well-founded recursion and does not reduce). -/
def lowerString (s : String) : String :=
  ⟨s.data.map Char.toLower⟩

/-- `formatBlock(pre, cols, factor)`: skip excluded languages and
over-long blocks; on change, snapshot the original content once (never
overwriting an existing snapshot) and replace the content.  The factor
`fnum / fden` is the page-wide indent factor (`factor < 1` is
`fnum < fden`). -/
def formatBlock (b : Block) (cols : Nat) (fnum fden : Nat) : Block :=
  let lang := lowerString b.lang
  if SKIP_LANGS lang then b
  else if 500 < b.lines.length then b
  else
    let r := formatLines lang cols fnum fden b.lines
    if r.1 then
      { b with lines := r.2,
               original := (match b.original with
                            | none => some b.lines
                            | some o => some o) }
    else b

/-- Per-block effect of `restoreAll`: reset the content from the
`data-original` snapshot when one exists. -/
def restoreBlock (b : Block) : Block :=
  match b.original with
  | some o => { b with lines := o }
  | none => b

/- ── Specification-side definitions ──────────────────────────────────── -/

/-- The quote automaton, following the spec's words: entering an unescaped
single or double quote opens a quoted run; the run closes at the next
occurrence of the same quote character not immediately preceded by a
backslash.  `quoteAuto text n` is the (in-run, quote-char) state entering
character `n`. -/
def quoteAuto (text : List Char) : Nat → Bool × Char
  | 0 => (false, ' ')
  | n + 1 =>
    let st := quoteAuto text n
    match text.get? n with
    | none => st
    | some c =>
      if st.1 then
        if c = st.2 ∧ (n = 0 ∨ text.get? (n - 1) ≠ some '\\') then (false, st.2) else st
      else if c = '\"' ∨ c = '\'' then (true, c)
      else st

/-- Modelled from the spec: the stack of columns of the currently-open
brackets after the first `n` characters ("`col` is the column of the
innermost currently-open bracket"), so the innermost open column is the
head.  Quote handling is omitted; it is only compared on quote-free
inputs. -/
def specOpenStack (text : List Char) : Nat → List Nat
  | 0 => []
  | n + 1 =>
    let st := specOpenStack text n
    match text.get? n with
    | none => st
    | some c =>
      if (OPENERS c).isSome then n :: st
      else if (CLOSERS c).isSome then st.tail
      else st

/-- Recursive minimum of the positive leading-space counts of a block's
lines (spec: "the minimum positive leading-space count observed across its
lines"). -/
def minPos : List Line → Option Nat
  | [] => none
  | l :: rest =>
    let sp := leadingSpaces l
    let r := minPos rest
    if 0 < sp then
      some (match r with | none => sp | some m => min sp m)
    else r

/-- The spec's detected indent unit: minimum positive leading-space count,
default 4 when no line is indented. -/
def specIndentUnit (lines : List Line) : Nat :=
  (minPos lines).getD 4

/-- The spec's compressed-unit formula: unchanged at or above the
comfortable threshold, halved (floor 2) below the aggressive threshold,
otherwise reduced by one (floor 2). -/
def specCompressedStep (step cols : Nat) : Nat :=
  if 55 ≤ cols then step
  else if cols < 35 then max (step / 2) 2
  else max (step - 1) 2

/-- The claim's reconstruction of a broken line: flatten the first piece
as-is and every continuation piece with its inserted leading indentation
stripped, with the inserted line breaks removed. -/
def flattenPieces (pieces : List Line) : List Char :=
  match pieces with
  | [] => []
  | p :: ps => plain p ++ (ps.map (fun q => (plain q).dropWhile (fun c => c == ' '))).flatten

/-- The spec's invariant on the threaded bracket state: depth never
negative, `col = -1` exactly when depth is 0, a real column otherwise. -/
def goodPS (ps : PS) : Prop :=
  (ps.depth = 0 ∧ ps.col = -1) ∨ (0 < ps.depth ∧ 0 ≤ ps.col)

/-- Printable length of the continuation marker a non-final emitted line
receives (`" \\"` for backslash languages, nothing otherwise). -/
def markerLen (lang : String) : Int :=
  if BACKSLASH_LANGS lang then 2 else 0

/- ── General helper lemmas ───────────────────────────────────────────── -/

theorem foldl_preserve {α β : Type} (f : α → β → α) (P : α → Prop) :
    ∀ (l : List β) (a : α), (∀ x r, r ∈ l → P x → P (f x r)) → P a → P (l.foldl f a) := by
  intro l
  induction l with
  | nil => intro a _ ha; simpa using ha
  | cons b t ih =>
    intro a h ha
    simp only [List.foldl_cons]
    exact ih (f a b) (fun x r hr hx => h x r (List.mem_cons_of_mem _ hr) hx)
      (h a b (List.mem_cons_self _ _) ha)

theorem plain_cons (s : Seg) (l : Line) : plain (s :: l) = s.text ++ plain l := by
  simp [plain]

theorem plain_single (s : Seg) : plain [s] = s.text := by
  simp [plain]

theorem splitGo_plain (pos : Nat) :
    ∀ (segs : Line) (count : Nat), count ≤ pos →
      plain (splitGo pos segs count).1 = (plain segs).take (pos - count) ∧
      plain (splitGo pos segs count).2 = (plain segs).drop (pos - count) := by
  intro segs
  induction segs with
  | nil => intro count _; simp [splitGo, plain]
  | cons seg rest ih =>
    intro count hc
    simp only [splitGo]
    by_cases h1 : count + seg.text.length ≤ pos
    · rw [if_pos h1]
      by_cases h2 : count + seg.text.length = pos
      · rw [if_pos h2]
        have hlen : pos - count = seg.text.length := by omega
        constructor
        · rw [plain_single, plain_cons, hlen, List.take_left]
        · rw [plain_cons, hlen, List.drop_left]
      · rw [if_neg h2]
        have hc2 : count + seg.text.length ≤ pos := h1
        obtain ⟨ihl, ihr⟩ := ih (count + seg.text.length) hc2
        have he : pos - (count + seg.text.length) = pos - count - seg.text.length := by
          omega
        constructor
        · rw [plain_cons, plain_cons, ihl, List.take_append_eq_append_take,
            @List.take_all_of_le _ (pos - count) seg.text (by omega), he]
        · rw [plain_cons, ihr, List.drop_append_eq_append_drop,
            @List.drop_eq_nil_of_le _ seg.text (pos - count) (by omega), List.nil_append, he]
    · rw [if_neg h1]
      have hk : pos - count < seg.text.length := by omega
      rw [if_pos (by simpa using hk)]
      constructor
      · rw [plain_single, plain_cons]
        rw [List.take_append_of_le_length (by omega)]
      · rw [plain_cons, plain_cons]
        rw [List.drop_append_of_le_length (by omega)]

theorem splitAt_plain (line : Line) (pos : Nat) :
    plain (splitAt line pos).1 = (plain line).take pos ∧
    plain (splitAt line pos).2 = (plain line).drop pos := by
  simpa using splitGo_plain pos line 0 (Nat.zero_le _)

theorem splitAt_plain_append (line : Line) (pos : Nat) :
    plain (splitAt line pos).1 ++ plain (splitAt line pos).2 = plain line := by
  obtain ⟨h1, h2⟩ := splitAt_plain line pos
  rw [h1, h2, List.take_append_drop]

theorem splitGo_markup (pos : Nat) :
    ∀ (segs : Line) (count : Nat) (s : Seg),
      s ∈ (splitGo pos segs count).1 ++ (splitGo pos segs count).2 →
      ∃ s2 ∈ segs, s.openTag = s2.openTag ∧ s.closeTag = s2.closeTag := by
  intro segs
  induction segs with
  | nil => intro count s hs; simp [splitGo] at hs
  | cons seg rest ih =>
    intro count s hs
    simp only [splitGo] at hs
    by_cases h1 : count + seg.text.length ≤ pos
    · rw [if_pos h1] at hs
      by_cases h2 : count + seg.text.length = pos
      · rw [if_pos h2] at hs
        rcases List.mem_append.mp hs with hmem | hmem
        · have heq := List.mem_singleton.mp hmem
          exact ⟨seg, List.mem_cons_self _ _, by rw [heq], by rw [heq]⟩
        · exact ⟨s, List.mem_cons_of_mem _ hmem, rfl, rfl⟩
      · rw [if_neg h2] at hs
        rcases List.mem_append.mp hs with hmem | hmem
        · rcases List.mem_cons.mp hmem with heq | hmem2
          · exact ⟨seg, List.mem_cons_self _ _, by rw [heq], by rw [heq]⟩
          · obtain ⟨s2, hs2, he⟩ := ih (count + seg.text.length) s
              (List.mem_append.mpr (Or.inl hmem2))
            exact ⟨s2, List.mem_cons_of_mem _ hs2, he⟩
        · obtain ⟨s2, hs2, he⟩ := ih (count + seg.text.length) s
            (List.mem_append.mpr (Or.inr hmem))
          exact ⟨s2, List.mem_cons_of_mem _ hs2, he⟩
    · rw [if_neg h1] at hs
      by_cases h3 : pos - count < seg.text.length
      · rw [if_pos h3] at hs
        rcases List.mem_append.mp hs with hmem | hmem
        · have heq := List.mem_singleton.mp hmem
          exact ⟨seg, List.mem_cons_self _ _, by rw [heq], by rw [heq]⟩
        · rcases List.mem_cons.mp hmem with heq | hmem2
          · exact ⟨seg, List.mem_cons_self _ _, by rw [heq], by rw [heq]⟩
          · exact ⟨s, List.mem_cons_of_mem _ hmem2, rfl, rfl⟩
      · rw [if_neg h3] at hs
        rcases List.mem_append.mp hs with hmem | hmem
        · have heq := List.mem_singleton.mp hmem
          exact ⟨seg, List.mem_cons_self _ _, by rw [heq], by rw [heq]⟩
        · exact ⟨s, List.mem_cons_of_mem _ hmem, rfl, rfl⟩

theorem plain_stripLeading :
    ∀ (l : Line), plain (stripLeading l) = (plain l).dropWhile (fun c => c == ' ') := by
  intro l
  induction l with
  | nil => simp [stripLeading, plain]
  | cons seg rest ih =>
    simp only [stripLeading]
    by_cases he : (seg.text.dropWhile (fun c => c == ' ')).isEmpty
    · rw [if_pos he, ih, plain_cons, List.dropWhile_append, if_pos (by simpa using he)]
    · rw [if_neg he, plain_cons, plain_cons, List.dropWhile_append, if_neg (by simpa using he)]

theorem filter_dropWhile_space (s : List Char) :
    (s.dropWhile (fun c => c == ' ')).filter (fun c => c != ' ') =
      s.filter (fun c => c != ' ') := by
  conv_rhs => rw [← List.takeWhile_append_dropWhile (fun c => c == ' ') s]
  rw [List.filter_append]
  have : (s.takeWhile (fun c => c == ' ')).filter (fun c => c != ' ') = [] := by
    rw [List.filter_eq_nil_iff]
    intro a ha
    have := List.mem_takeWhile_imp ha
    simp_all
  rw [this, List.nil_append]

theorem filter_replicate_space (n : Nat) :
    (List.replicate n ' ').filter (fun c => c != ' ') = [] := by
  rw [List.filter_eq_nil_iff]
  intro a ha
  have := List.eq_of_mem_replicate ha
  simp_all

theorem plain_prependPad (l : Line) (n : Nat) :
    plain (prependPad l n) =
      List.replicate n ' ' ++ (plain l).dropWhile (fun c => c == ' ') := by
  rw [prependPad, plain_cons, plain_stripLeading]

/- ── Scanner invariants ──────────────────────────────────────────────── -/

theorem scanFold_succ (text : List Char) (rules : List Rule) (floor maxCols : Int)
    (initPs : PS) (n : Nat) :
    scanFold text rules floor maxCols initPs (n + 1) =
      scanStep text rules floor maxCols (scanFold text rules floor maxCols initPs n) n := by
  unfold scanFold
  rw [List.range_succ, List.foldl_append]
  rfl

/-- The soundness facts recorded for a scanner best-offset value. -/
def BestP (floor maxCols len : Int) (v : Int) : Prop :=
  v < 0 ∨ (floor < v ∧ v ≤ maxCols ∧ v < len)

theorem ruleStep_fst (text : List Char) (floor maxCols : Int) (i : Nat)
    (prevD prevC d cl : Int) (acc : Int × Option PS × Int) (r : Rule) :
    (ruleStep text floor maxCols i prevD prevC d cl acc r).1 = acc.1 ∨
      ((ruleStep text floor maxCols i prevD prevC d cl acc r).1 = bpOf r i ∧
        r.pat.isPrefixOf (text.drop i) = true ∧
        floor < bpOf r i ∧ bpOf r i ≤ maxCols ∧ bpOf r i < (text.length : Int)) := by
  unfold ruleStep
  by_cases hpre : r.pat.isPrefixOf (text.drop i)
  · rw [if_pos hpre]
    by_cases hskip : bpOf r i ≤ floor ∨ (text.length : Int) ≤ bpOf r i ∨ ruleSkip text i r
    · rw [if_pos hskip]
      exact Or.inl rfl
    · rw [if_neg hskip]
      push_neg at hskip
      by_cases hbest : bpOf r i ≤ maxCols ∧ acc.1 < bpOf r i
      · rw [if_pos hbest]
        exact Or.inr ⟨rfl, hpre, hskip.1, hbest.1, hskip.2.1⟩
      · rw [if_neg hbest]
        exact Or.inl rfl
  · rw [if_neg hpre]
    exact Or.inl rfl

theorem ruleStep_snd (text : List Char) (floor maxCols : Int) (i : Nat)
    (prevD prevC d cl : Int) (acc : Int × Option PS × Int) (r : Rule) :
    (ruleStep text floor maxCols i prevD prevC d cl acc r).2.1 = acc.2.1 ∨
      (ruleStep text floor maxCols i prevD prevC d cl acc r).2.1 = some ⟨prevD, prevC⟩ ∨
      (ruleStep text floor maxCols i prevD prevC d cl acc r).2.1 = some ⟨d, cl⟩ := by
  unfold ruleStep
  by_cases hpre : r.pat.isPrefixOf (text.drop i)
  · rw [if_pos hpre]
    by_cases hskip : bpOf r i ≤ floor ∨ (text.length : Int) ≤ bpOf r i ∨ ruleSkip text i r
    · rw [if_pos hskip]
      exact Or.inl rfl
    · rw [if_neg hskip]
      by_cases hbest : bpOf r i ≤ maxCols ∧ acc.1 < bpOf r i
      · rw [if_pos hbest]
        by_cases hcb : closerBefore r = true
        · rw [if_pos hcb]
          exact Or.inr (Or.inl rfl)
        · rw [if_neg hcb]
          exact Or.inr (Or.inr rfl)
      · rw [if_neg hbest]
        exact Or.inl rfl
  · rw [if_neg hpre]
    exact Or.inl rfl

theorem scanStep_quotecase (text : List Char) (rules : List Rule) (floor maxCols : Int)
    (s : ScanState) (i : Nat)
    (P : Int → Option PS → Prop)
    (hkeep : P s.best s.bestPs)
    (hrules : ∀ c, text.get? i = some c → s.inStr = false → ¬(c = '\"' ∨ c = '\'') →
      P ((rules.foldl (ruleStep text floor maxCols i s.depth s.col
            (bracketUpd s i c).1 (bracketUpd s i c).2) (s.best, s.bestPs, s.lastSep)).1)
        ((rules.foldl (ruleStep text floor maxCols i s.depth s.col
            (bracketUpd s i c).1 (bracketUpd s i c).2) (s.best, s.bestPs, s.lastSep)).2.1)) :
    P (scanStep text rules floor maxCols s i).best
      (scanStep text rules floor maxCols s i).bestPs := by
  unfold scanStep
  cases hget : text.get? i with
  | none => exact hkeep
  | some c =>
    by_cases hstr : s.inStr
    · simp only [hstr, if_true]
      by_cases hcond : c = s.strChar ∧ (i = 0 ∨ text.get? (i - 1) ≠ some '\\')
      · rw [if_pos hcond]
        exact hkeep
      · rw [if_neg hcond]
        exact hkeep
    · simp only [hstr, if_false]
      by_cases hq : c = '\"' ∨ c = '\''
      · rw [if_pos hq]
        exact hkeep
      · rw [if_neg hq]
        exact hrules c hget (by simpa using hstr) hq

theorem scanStep_best (text : List Char) (rules : List Rule) (floor maxCols : Int)
    (s : ScanState) (i : Nat)
    (h : BestP floor maxCols (text.length : Int) s.best) :
    BestP floor maxCols (text.length : Int) (scanStep text rules floor maxCols s i).best := by
  have := scanStep_quotecase text rules floor maxCols s i
    (fun v _ => BestP floor maxCols (text.length : Int) v) h
  apply this
  intro c _ _ _
  have hfold := foldl_preserve
    (ruleStep text floor maxCols i s.depth s.col (bracketUpd s i c).1 (bracketUpd s i c).2)
    (fun a => BestP floor maxCols (text.length : Int) a.1)
    rules (s.best, s.bestPs, s.lastSep) ?_ h
  · exact hfold
  · intro x r _ hx
    rcases ruleStep_fst text floor maxCols i s.depth s.col
      (bracketUpd s i c).1 (bracketUpd s i c).2 x r with heq | ⟨heq, _, h1, h2, h3⟩
    · rw [heq]
      exact hx
    · rw [heq]
      exact Or.inr ⟨h1, h2, h3⟩

theorem scanFold_best (text : List Char) (rules : List Rule) (floor maxCols : Int)
    (initPs : PS) :
    ∀ n, BestP floor maxCols (text.length : Int)
      (scanFold text rules floor maxCols initPs n).best := by
  intro n
  induction n with
  | zero => exact Or.inl (by norm_num [scanFold, scanInit])
  | succ m ih =>
    rw [scanFold_succ]
    exact scanStep_best text rules floor maxCols _ m ih

theorem scanChunk_bounds (text : List Char) (lang : String) (floor maxCols : Int)
    (initPs : PS) (res : ScanResult)
    (h : scanChunk text lang floor maxCols initPs = some res) :
    floor < res.bp ∧ res.bp ≤ maxCols ∧ res.bp < (text.length : Int) := by
  simp only [scanChunk] at h
  have hbest := scanFold_best text (rulesFor lang) floor maxCols initPs text.length
  by_cases hneg : (scanFold text (rulesFor lang) floor maxCols initPs text.length).best < 0
  · rw [if_pos hneg] at h
    exact absurd h (by simp)
  · rw [if_neg hneg] at h
    have hres := Option.some.inj h
    have hbp : res.bp =
        (scanFold text (rulesFor lang) floor maxCols initPs text.length).best := by
      rw [← hres]
    rw [hbp]
    rcases hbest with hlt | hok
    · omega
    · exact hok

theorem bracketUpd_good (s : ScanState) (i : Nat) (c : Char)
    (h : goodPS ⟨s.depth, s.col⟩) :
    goodPS ⟨(bracketUpd s i c).1, (bracketUpd s i c).2⟩ := by
  have hh : (s.depth = 0 ∧ s.col = -1) ∨ (0 < s.depth ∧ 0 ≤ s.col) := h
  unfold bracketUpd
  by_cases ho : (OPENERS c).isSome
  · rw [if_pos ho]
    show (s.depth + 1 = 0 ∧ (i : Int) = -1) ∨ (0 < s.depth + 1 ∧ 0 ≤ (i : Int))
    refine Or.inr ⟨by omega, by omega⟩
  · rw [if_neg ho]
    by_cases hc : (CLOSERS c).isSome
    · rw [if_pos hc]
      by_cases hd : s.depth - 1 ≤ 0
      · rw [if_pos hd]
        exact Or.inl ⟨rfl, rfl⟩
      · rw [if_neg hd]
        show (s.depth - 1 = 0 ∧ s.col = -1) ∨ (0 < s.depth - 1 ∧ 0 ≤ s.col)
        refine Or.inr ⟨by omega, ?_⟩
        rcases hh with ⟨h1, h2⟩ | ⟨h1, h2⟩
        · omega
        · exact h2
    · rw [if_neg hc]
      exact h

/-- The goodness invariant over the full scanner state. -/
def GoodS (s : ScanState) : Prop :=
  goodPS ⟨s.depth, s.col⟩ ∧ ∀ ps, s.bestPs = some ps → goodPS ps

theorem scanStep_good (text : List Char) (rules : List Rule) (floor maxCols : Int)
    (s : ScanState) (i : Nat)
    (h : GoodS s) : GoodS (scanStep text rules floor maxCols s i) := by
  unfold scanStep
  cases hget : text.get? i with
  | none => exact h
  | some c =>
    by_cases hstr : s.inStr
    · simp only [hstr, if_true]
      by_cases hcond : c = s.strChar ∧ (i = 0 ∨ text.get? (i - 1) ≠ some '\\')
      · rw [if_pos hcond]
        exact h
      · rw [if_neg hcond]
        exact h
    · simp only [hstr, if_false]
      by_cases hq : c = '\"' ∨ c = '\''
      · rw [if_pos hq]
        exact h
      · rw [if_neg hq]
        refine ⟨bracketUpd_good s i c h.1, ?_⟩
        have hfold := foldl_preserve
          (ruleStep text floor maxCols i s.depth s.col (bracketUpd s i c).1 (bracketUpd s i c).2)
          (fun a => ∀ ps, a.2.1 = some ps → goodPS ps)
          rules (s.best, s.bestPs, s.lastSep) ?_ h.2
        · exact hfold
        · intro x r _ hx
          rcases ruleStep_snd text floor maxCols i s.depth s.col
            (bracketUpd s i c).1 (bracketUpd s i c).2 x r with heq | heq | heq
          · rw [heq]
            exact hx
          · rw [heq]
            intro ps hps
            have := Option.some.inj hps
            rw [← this]
            exact h.1
          · rw [heq]
            intro ps hps
            have := Option.some.inj hps
            rw [← this]
            exact bracketUpd_good s i c h.1

theorem scanFold_good (text : List Char) (rules : List Rule) (floor maxCols : Int)
    (initPs : PS) (hinit : goodPS initPs) :
    ∀ n, GoodS (scanFold text rules floor maxCols initPs n) := by
  intro n
  induction n with
  | zero =>
    constructor
    · simpa [scanFold, scanInit] using hinit
    · intro ps hps
      exact absurd hps (by simp [scanFold, scanInit])
  | succ m ih =>
    rw [scanFold_succ]
    exact scanStep_good text rules floor maxCols _ m ih

theorem scanChunk_good (text : List Char) (lang : String) (floor maxCols : Int)
    (initPs : PS) (res : ScanResult)
    (hinit : goodPS initPs)
    (h : scanChunk text lang floor maxCols initPs = some res) :
    goodPS res.ps := by
  simp only [scanChunk] at h
  have hgood := scanFold_good text (rulesFor lang) floor maxCols initPs hinit text.length
  by_cases hneg : (scanFold text (rulesFor lang) floor maxCols initPs text.length).best < 0
  · rw [if_pos hneg] at h
    exact absurd h (by simp)
  · rw [if_neg hneg] at h
    have hres := Option.some.inj h
    have hps : res.ps =
        ((scanFold text (rulesFor lang) floor maxCols initPs text.length).bestPs).getD ⟨0, -1⟩ := by
      rw [← hres]
    rw [hps]
    cases hbp : (scanFold text (rulesFor lang) floor maxCols initPs text.length).bestPs with
    | none => exact Or.inl ⟨rfl, rfl⟩
    | some ps =>
      simpa using hgood.2 ps hbp

theorem quoteAuto_succ (text : List Char) (n : Nat) :
    quoteAuto text (n + 1) =
      match text.get? n with
      | none => quoteAuto text n
      | some c =>
        if (quoteAuto text n).1 then
          if c = (quoteAuto text n).2 ∧ (n = 0 ∨ text.get? (n - 1) ≠ some '\\') then
            (false, (quoteAuto text n).2)
          else quoteAuto text n
        else if c = '\"' ∨ c = '\'' then (true, c)
        else quoteAuto text n := rfl

theorem scanFold_quote (text : List Char) (rules : List Rule) (floor maxCols : Int)
    (initPs : PS) :
    ∀ n, ((scanFold text rules floor maxCols initPs n).inStr,
          (scanFold text rules floor maxCols initPs n).strChar) = quoteAuto text n := by
  intro n
  induction n with
  | zero => rfl
  | succ m ih =>
    rw [scanFold_succ, quoteAuto_succ, ← ih]
    unfold scanStep
    cases hget : text.get? m with
    | none => rfl
    | some c =>
      dsimp only
      by_cases hstr : (scanFold text rules floor maxCols initPs m).inStr = true
      · rw [if_pos hstr, if_pos hstr]
        by_cases hcond : c = (scanFold text rules floor maxCols initPs m).strChar ∧
            (m = 0 ∨ text.get? (m - 1) ≠ some '\\')
        · rw [if_pos hcond, if_pos hcond]
        · rw [if_neg hcond, if_neg hcond]
      · rw [if_neg hstr, if_neg hstr]
        by_cases hq : c = '\"' ∨ c = '\''
        · rw [if_pos hq, if_pos hq]
        · rw [if_neg hq, if_neg hq]

/-- A scanner best offset is valid when some rule matches at an unquoted
position and yields exactly that offset. -/
def ValidB (text : List Char) (rules : List Rule) (v : Int) : Prop :=
  ∃ i r, r ∈ rules ∧ r.pat.isPrefixOf (text.drop i) = true ∧ bpOf r i = v ∧
    (quoteAuto text i).1 = false

theorem scanStep_valid (text : List Char) (rules : List Rule) (floor maxCols : Int)
    (initPs : PS) (m : Nat)
    (h : (scanFold text rules floor maxCols initPs m).best < 0 ∨
      ValidB text rules (scanFold text rules floor maxCols initPs m).best) :
    (scanFold text rules floor maxCols initPs (m + 1)).best < 0 ∨
      ValidB text rules (scanFold text rules floor maxCols initPs (m + 1)).best := by
  have hquote := scanFold_quote text rules floor maxCols initPs m
  rw [scanFold_succ]
  refine scanStep_quotecase text rules floor maxCols _ m
    (fun v _ => v < 0 ∨ ValidB text rules v) h ?_
  intro c _ hstr _
  have hqm : (quoteAuto text m).1 = false := by
    rw [← hquote]
    exact hstr
  refine foldl_preserve _
    (fun a : Int × Option PS × Int => a.1 < 0 ∨ ValidB text rules a.1) rules _ ?_ h
  intro x r hr hx
  rcases ruleStep_fst text floor maxCols m
      (scanFold text rules floor maxCols initPs m).depth
      (scanFold text rules floor maxCols initPs m).col
      (bracketUpd (scanFold text rules floor maxCols initPs m) m c).1
      (bracketUpd (scanFold text rules floor maxCols initPs m) m c).2 x r with
    heq | ⟨heq, hpre, _, _, _⟩
  · rw [heq]
    exact hx
  · rw [heq]
    exact Or.inr ⟨m, r, hr, hpre, rfl, hqm⟩

theorem scanFold_valid (text : List Char) (rules : List Rule) (floor maxCols : Int)
    (initPs : PS) :
    ∀ n, (scanFold text rules floor maxCols initPs n).best < 0 ∨
      ValidB text rules (scanFold text rules floor maxCols initPs n).best := by
  intro n
  induction n with
  | zero => exact Or.inl (by norm_num [scanFold, scanInit])
  | succ m ih => exact scanStep_valid text rules floor maxCols initPs m ih

theorem scanChunk_valid (text : List Char) (lang : String) (floor maxCols : Int)
    (initPs : PS) (res : ScanResult)
    (h : scanChunk text lang floor maxCols initPs = some res) :
    ValidB text (rulesFor lang) res.bp := by
  simp only [scanChunk] at h
  have hvalid := scanFold_valid text (rulesFor lang) floor maxCols initPs text.length
  by_cases hneg : (scanFold text (rulesFor lang) floor maxCols initPs text.length).best < 0
  · rw [if_pos hneg] at h
    exact absurd h (by simp)
  · rw [if_neg hneg] at h
    have hres := Option.some.inj h
    have hbp : res.bp =
        (scanFold text (rulesFor lang) floor maxCols initPs text.length).best := by
      rw [← hres]
    rw [hbp]
    rcases hvalid with hlt | hok
    · omega
    · exact hok

/- ── Line-breaker loop invariants ────────────────────────────────────── -/

theorem breakIter_pieces (cols indent : Nat) (fb : Int) (s : BrSt) (res : ScanResult) :
    (breakIter cols indent fb s res).pieces =
      s.pieces ++ [(splitAt s.rem res.bp.toNat).1] := rfl

theorem breakIter_rem (cols indent : Nat) (fb : Int) (s : BrSt) (res : ScanResult) :
    (breakIter cols indent fb s res).rem =
      prependPad (splitAt s.rem res.bp.toNat).2
        (chooseCI res.ps s.ps.depth (indent : Int) fb cols res.hasArgSep).toNat := rfl

theorem breakLoop_bounded (cols : Nat) (lang : String) (budget : Int) (indent : Nat)
    (fb : Int) :
    ∀ (fuel : Nat) (s : BrSt),
      (∀ p ∈ s.pieces, ((plain p).length : Int) ≤ budget) →
      ∀ p ∈ (breakLoop cols lang budget indent fb fuel s).pieces,
        ((plain p).length : Int) ≤ budget := by
  intro fuel
  induction fuel with
  | zero =>
    intro s hs
    simpa only [breakLoop] using hs
  | succ fuel ih =>
    intro s hs
    simp only [breakLoop]
    by_cases hfit : ((plain s.rem).length : Int) ≤ budget
    · rw [if_pos hfit]
      exact hs
    · rw [if_neg hfit]
      cases hscan : scanChunk (plain s.rem) lang (max (searchNonWS (plain s.rem)) 0)
          budget s.ps with
      | none =>
        simp only [hscan]
        exact hs
      | some res =>
        simp only [hscan]
        have hb := scanChunk_bounds (plain s.rem) lang (max (searchNonWS (plain s.rem)) 0)
          budget s.ps res hscan
        have hnn : (0 : Int) ≤ res.bp := le_trans (le_max_right _ 0) (le_of_lt hb.1)
        have hstep : ∀ p ∈ (breakIter cols indent fb s res).pieces,
            ((plain p).length : Int) ≤ budget := by
          rw [breakIter_pieces]
          intro p hp
          rcases List.mem_append.mp hp with hp1 | hp2
          · exact hs p hp1
          · have hpe := List.mem_singleton.mp hp2
            rw [hpe]
            have hplain := (splitAt_plain s.rem res.bp.toNat).1
            rw [hplain, List.length_take]
            calc ((min res.bp.toNat (plain s.rem).length : Nat) : Int)
                ≤ (res.bp.toNat : Int) := by
                  exact_mod_cast Nat.min_le_left _ _
              _ = res.bp := Int.toNat_of_nonneg hnn
              _ ≤ budget := hb.2.1
        by_cases hend : ((plain s.rem).length : Int) - 1 ≤ res.bp
        · rw [if_pos hend]
          exact hs
        · rw [if_neg hend]
          by_cases hprog : s.prevLen ≤ (breakIter cols indent fb s res).prevLen
          · rw [if_pos hprog]
            exact hstep
          · rw [if_neg hprog]
            exact ih (breakIter cols indent fb s res) hstep

theorem breakLoop_content (cols : Nat) (lang : String) (budget : Int) (indent : Nat)
    (fb : Int) :
    ∀ (fuel : Nat) (s : BrSt),
      (((breakLoop cols lang budget indent fb fuel s).pieces.map plain).flatten.filter
          (fun c => c != ' ')) ++
        ((plain (breakLoop cols lang budget indent fb fuel s).rem).filter (fun c => c != ' '))
      = ((s.pieces.map plain).flatten.filter (fun c => c != ' ')) ++
        ((plain s.rem).filter (fun c => c != ' ')) := by
  intro fuel
  induction fuel with
  | zero =>
    intro s
    simp only [breakLoop]
  | succ fuel ih =>
    intro s
    simp only [breakLoop]
    by_cases hfit : ((plain s.rem).length : Int) ≤ budget
    · rw [if_pos hfit]
    · rw [if_neg hfit]
      cases hscan : scanChunk (plain s.rem) lang (max (searchNonWS (plain s.rem)) 0)
          budget s.ps with
      | none => simp only [hscan]
      | some res =>
        simp only [hscan]
        have hstep : (((breakIter cols indent fb s res).pieces.map plain).flatten.filter
              (fun c => c != ' ')) ++
            ((plain (breakIter cols indent fb s res).rem).filter (fun c => c != ' '))
            = ((s.pieces.map plain).flatten.filter (fun c => c != ' ')) ++
              ((plain s.rem).filter (fun c => c != ' ')) := by
          rw [breakIter_pieces, breakIter_rem, plain_prependPad]
          rw [List.filter_append, filter_replicate_space, List.nil_append,
            filter_dropWhile_space]
          rw [List.map_append, List.flatten_append, List.filter_append]
          rw [List.append_assoc]
          congr 1
          have : (List.map plain [(splitAt s.rem res.bp.toNat).1]).flatten =
              plain (splitAt s.rem res.bp.toNat).1 := by
            simp
          rw [this, ← List.filter_append, splitAt_plain_append]
        by_cases hend : ((plain s.rem).length : Int) - 1 ≤ res.bp
        · rw [if_pos hend]
        · rw [if_neg hend]
          by_cases hprog : s.prevLen ≤ (breakIter cols indent fb s res).prevLen
          · rw [if_pos hprog]
            exact hstep
          · rw [if_neg hprog]
            rw [ih (breakIter cols indent fb s res)]
            exact hstep

/- ── Indent-analysis lemmas ──────────────────────────────────────────── -/

theorem minPos_pos : ∀ (lines : List Line) (m : Nat), minPos lines = some m → 0 < m := by
  intro lines
  induction lines with
  | nil => intro m hm; exact absurd hm (by simp [minPos])
  | cons l rest ih =>
    intro m hm
    simp only [minPos] at hm
    by_cases hsp : 0 < leadingSpaces l
    · rw [if_pos hsp] at hm
      cases hmr : minPos rest with
      | none =>
        rw [hmr] at hm
        have h2 : leadingSpaces l = m := by simpa using hm
        omega
      | some m2 =>
        rw [hmr] at hm
        have h2 : min (leadingSpaces l) m2 = m := by simpa using hm
        have h3 := ih m2 hmr
        omega
    · rw [if_neg hsp] at hm
      exact ih m hm

theorem detectLoop_eq : ∀ (lines : List Line) (step : Nat),
    detectLoop lines step =
      (minPos lines).elim step (fun m => if step = 0 then m else min step m) := by
  intro lines
  induction lines with
  | nil => intro step; simp [detectLoop, minPos]
  | cons l rest ih =>
    intro step
    simp only [detectLoop, minPos]
    by_cases hsp : 0 < leadingSpaces l
    · by_cases h2 : step = 0 ∨ leadingSpaces l < step
      · rw [if_pos ⟨hsp, h2⟩, ih (leadingSpaces l), if_pos hsp]
        cases hmr : minPos rest with
        | none =>
          simp only [Option.elim]
          rcases h2 with h2 | h2
          · rw [h2]
            simp
          · rw [if_neg (by omega)]
            omega
        | some m2 =>
          simp only [Option.elim]
          rw [if_neg (by omega)]
          rcases h2 with h2 | h2
          · rw [h2]
            simp
          · rw [if_neg (by omega)]
            omega
      · rw [if_neg (by tauto), ih step, if_pos hsp]
        push_neg at h2
        cases hmr : minPos rest with
        | none =>
          simp only [Option.elim]
          rw [if_neg h2.1]
          omega
        | some m2 =>
          simp only [Option.elim]
          rw [if_neg h2.1, if_neg h2.1]
          omega
    · rw [if_neg (by tauto), ih step, if_neg hsp]

theorem detectIndentStep_spec (lines : List Line) :
    detectIndentStep lines = specIndentUnit lines := by
  have h := detectLoop_eq lines 0
  cases hm : minPos lines with
  | none =>
    rw [hm] at h
    simp only [Option.elim] at h
    simp [detectIndentStep, specIndentUnit, h, hm]
  | some m =>
    rw [hm] at h
    have h2 : detectLoop lines 0 = m := by simpa using h
    have hpos := minPos_pos lines m hm
    simp only [detectIndentStep, specIndentUnit, h2, hm, Option.getD_some]
    rw [if_neg (by omega)]

/- ── Claim theorems ──────────────────────────────────────────────────── -/

/-- C9: a block whose language tag lowercases to one of the excluded
assembly dialects (asm, nasm, gas) is left completely unchanged by a
formatting pass — same rendered content, no snapshot attribute attached —
at every measured width and indent factor. -/
theorem formatBlock_skip_langs (b : Block) (cols fnum fden : Nat)
    (h : SKIP_LANGS (lowerString b.lang) = true) :
    formatBlock b cols fnum fden = b := by
  simp only [formatBlock]
  rw [if_pos h]

theorem formatBlock_skip_langs_witness :
    formatBlock ⟨"asm", [[⟨"  mov r0, r1".toList, "", ""⟩]], none⟩ 10 1 2 =
      ⟨"asm", [[⟨"  mov r0, r1".toList, "", ""⟩]], none⟩ :=
  formatBlock_skip_langs ⟨"asm", [[⟨"  mov r0, r1".toList, "", ""⟩]], none⟩ 10 1 2 (by decide)

/-- C10: for `0 ≤ pos ≤` the line's total text length, `splitAt` returns
halves whose flattened texts are exactly the first `pos` characters and
the rest, and every produced segment carries the open/close markup of a
segment of the input line (a straddling segment is split into two parts,
each keeping that markup). -/
theorem splitAt_spec (line : Line) (pos : Nat) (h : pos ≤ (plain line).length) :
    plain (splitAt line pos).1 = (plain line).take pos ∧
    plain (splitAt line pos).2 = (plain line).drop pos ∧
    ∀ s ∈ (splitAt line pos).1 ++ (splitAt line pos).2,
      ∃ s2 ∈ line, s.openTag = s2.openTag ∧ s.closeTag = s2.closeTag :=
  ⟨(splitAt_plain line pos).1, (splitAt_plain line pos).2,
    fun s hs => splitGo_markup pos line 0 s hs⟩

theorem splitAt_spec_witness :
    (1 ≤ (plain [⟨"ab".toList, "s", "t"⟩, ⟨"cd".toList, "", ""⟩]).length) ∧
    plain (splitAt [⟨"ab".toList, "s", "t"⟩, ⟨"cd".toList, "", ""⟩] 1).1 =
      (plain [⟨"ab".toList, "s", "t"⟩, ⟨"cd".toList, "", ""⟩]).take 1 :=
  ⟨by decide, (splitAt_spec [⟨"ab".toList, "s", "t"⟩, ⟨"cd".toList, "", ""⟩] 1 (by decide)).1⟩

/-- C3 (amended): the continuation indent chosen by the Line Breaker never
exceeds half the column count, and when the accepted break lies inside an
open container (positive depth, recorded opening column) and an argument
separator occurs at or after the break, the indent is exactly
`min (opening column + 1, half the column count)` — so it is at least the
opening column + 1 only when that does not exceed half the columns; the
half-column clamp (and, without a separator, the single-argument
adjustment) can choose a smaller indent than `opening column + 1`. -/
theorem chooseCI_bounds (ps : PS) (prevDepth indent fallback : Int) (cols : Nat)
    (hasArgSep : Bool) :
    chooseCI ps prevDepth indent fallback cols hasArgSep ≤ ((cols / 2 : Nat) : Int) ∧
    (0 < ps.depth → 0 ≤ ps.col → hasArgSep = true →
      chooseCI ps prevDepth indent fallback cols hasArgSep =
        min (ps.col + 1) ((cols / 2 : Nat) : Int)) := by
  have hle : continuationIndent ps prevDepth indent fallback cols ≤ ((cols / 2 : Nat) : Int) := by
    simp only [continuationIndent]
    exact min_le_right _ _
  constructor
  · simp only [chooseCI]
    split
    · exact min_le_right _ _
    · exact hle
  · intro hd hc hsep
    simp only [chooseCI]
    have hci : continuationIndent ps prevDepth indent fallback cols =
        min (ps.col + 1) ((cols / 2 : Nat) : Int) := by
      simp only [continuationIndent]
      rw [if_pos ⟨hd, hc⟩]
    rw [hci]
    have hno : ¬(0 < ps.depth ∧ fallback < min (ps.col + 1) ((cols / 2 : Nat) : Int) ∧
        hasArgSep = false) := by
      rintro ⟨-, -, hfalse⟩
      rw [hsep] at hfalse
      cases hfalse
    rw [if_neg hno]

theorem chooseCI_bounds_witness :
    chooseCI ⟨1, 18⟩ 0 0 4 20 true ≤ ((20 / 2 : Nat) : Int) ∧
    chooseCI ⟨1, 18⟩ 0 0 4 20 true = min ((18 : Int) + 1) ((20 / 2 : Nat) : Int) :=
  ⟨(chooseCI_bounds ⟨1, 18⟩ 0 0 4 20 true).1,
    (chooseCI_bounds ⟨1, 18⟩ 0 0 4 20 true).2 (by decide) (by decide) rfl⟩

/-- C3 counterexample: on the C line `xxxxxxxxxxxxxxxxxx(aa, bb, cc)` at
20 columns the breaker accepts a break at offset 19 with bracket depth 1
and opening column 18, yet the continuation indent it chooses is 10
(half the columns), which is smaller than opening column + 1 = 19: the
second emitted piece is padded with only 10 spaces. -/
theorem contIndent_bracket_cex :
    scanChunk "xxxxxxxxxxxxxxxxxx(aa, bb, cc)".toList "c" 0 20 ⟨0, -1⟩ =
      some ⟨19, ⟨1, 18⟩, true⟩ ∧
    breakLinePieces [⟨"xxxxxxxxxxxxxxxxxx(aa, bb, cc)".toList, "", ""⟩] 20 "c" =
      some [[⟨"xxxxxxxxxxxxxxxxxx(".toList, "", ""⟩],
            [⟨List.replicate 10 ' ', "", ""⟩, ⟨"aa, bb, cc)".toList, "", ""⟩]] ∧
    chooseCI ⟨1, 18⟩ 0 0 4 20 true = 10 ∧
    ¬((18 + 1 : Int) ≤ 10) := by
  decide

/-- C7 (amended): the detected structural indent unit is the minimum
positive leading-space count over the block's lines (default 4 when no
line is indented); the compressed unit follows the spec's width formula
(unchanged at 55 columns or more, halved with floor 2 below 35 columns,
otherwise reduced by one with floor 2) whenever the unit is at least 2,
but a unit of 1 is returned unchanged at every width instead of being
raised to the floor. -/
theorem indent_analysis_spec :
    (∀ lines : List Line, detectIndentStep lines = specIndentUnit lines) ∧
    (∀ step cols : Nat, 2 ≤ step →
      computeCompressedStep step cols = specCompressedStep step cols) ∧
    (∀ cols : Nat, cols < 55 →
      computeCompressedStep 1 cols = 1 ∧ specCompressedStep 1 cols = 2) := by
  refine ⟨detectIndentStep_spec, ?_, ?_⟩
  · intro step cols h
    unfold computeCompressedStep specCompressedStep
    by_cases h1 : 55 ≤ cols
    · rw [if_pos (Or.inl h1), if_pos h1]
    · by_cases h2 : step ≤ 2
      · have hs2 : step = 2 := by omega
        subst hs2
        rw [if_pos (Or.inr (by omega)), if_neg h1]
        by_cases h3 : cols < 35
        · rw [if_pos h3]
          decide
        · rw [if_neg h3]
          decide
      · rw [if_neg (by tauto), if_neg h1]
        by_cases h3 : cols < 35
        · rw [if_pos h3, if_pos h3, Nat.shiftRight_one]
        · rw [if_neg h3, if_neg h3]
  · intro cols h
    constructor
    · unfold computeCompressedStep
      rw [if_pos (Or.inr (by omega))]
    · unfold specCompressedStep
      rw [if_neg (by omega)]
      by_cases h3 : cols < 35
      · rw [if_pos h3]
        decide
      · rw [if_neg h3]
        decide

theorem indent_analysis_spec_witness :
    computeCompressedStep 4 30 = specCompressedStep 4 30 ∧
    (computeCompressedStep 1 20 = 1 ∧ specCompressedStep 1 20 = 2) :=
  ⟨indent_analysis_spec.2.1 4 30 (by decide), indent_analysis_spec.2.2 20 (by decide)⟩

/-- C7 counterexample: a block containing a line indented by one space has
detected unit 1; at 30 columns (below the aggressive threshold) the code
returns the unit unchanged (1), while the claim's formula — the unit
halved but never below the floor of 2 — gives 2. -/
theorem computeCompressedStep_cex :
    detectIndentStep [[⟨" x".toList, "", ""⟩]] = 1 ∧
    computeCompressedStep 1 30 = 1 ∧
    specCompressedStep 1 30 = 2 ∧ (1 : Nat) ≠ 2 := by
  decide

theorem closer_not_opener (c : Char) (hc : (CLOSERS c).isSome = true) :
    (OPENERS c).isSome = false := by
  unfold CLOSERS at hc
  by_cases h1 : c = ')'
  · subst h1
    decide
  · rw [if_neg h1] at hc
    by_cases h2 : c = ']'
    · subst h2
      decide
    · rw [if_neg h2] at hc
      by_cases h3 : c = '}'
      · subst h3
        decide
      · rw [if_neg h3] at hc
        cases hc

/-- C8 (amended): the bracket-depth state the scanner threads is sound in
the spec's clamping sense — starting from a good state (depth never
negative, `col = -1` exactly when depth is 0, a real column when depth is
positive), the state returned with a chosen break is again good, and a
closing bracket seen at depth 0 leaves the state at depth 0 with `col`
reset to `-1`.  However, when depth is positive `col` is the column of
the most recently opened bracket, which after an inner bracket closes can
remain that closed bracket's column rather than the column of the
enclosing (innermost still-open) bracket. -/
theorem scanChunk_goodPS :
    (∀ (text : List Char) (lang : String) (floor maxCols : Int) (initPs : PS)
        (res : ScanResult),
      goodPS initPs → scanChunk text lang floor maxCols initPs = some res →
      goodPS res.ps) ∧
    (∀ (s : ScanState) (i : Nat) (c : Char),
      (CLOSERS c).isSome = true → s.depth = 0 → bracketUpd s i c = (0, -1)) := by
  constructor
  · intro text lang floor maxCols initPs res hinit h
    exact scanChunk_good text lang floor maxCols initPs res hinit h
  · intro s i c hc hd
    unfold bracketUpd
    rw [if_neg (by rw [closer_not_opener c hc]; exact Bool.false_ne_true),
      if_pos hc, if_pos (by omega)]

theorem scanChunk_goodPS_witness : goodPS (⟨1, 1⟩ : PS) :=
  scanChunk_goodPS.1 "a(b, c, d)".toList "c" 0 100 ⟨0, -1⟩ ⟨9, ⟨1, 1⟩, false⟩
    (Or.inl ⟨rfl, rfl⟩) (by decide)

/-- C8 counterexample: scanning the C line `f(aa[bb], cc, dd` (the `[` at
column 4 closed by `]` at 7 while the `(` at column 1 stays open), the
break chosen at offset 14 carries state depth 1 with `col = 4` — the
column of the already-closed inner bracket — while the innermost
currently-open bracket is the `(` at column 1. -/
theorem scan_col_innermost_cex :
    scanChunk "f(aa[bb], cc, dd".toList "c" 0 100 ⟨0, -1⟩ = some ⟨14, ⟨1, 4⟩, true⟩ ∧
    specOpenStack "f(aa[bb], cc, dd".toList 14 = [1] ∧ ((4 : Int) ≠ 1) := by
  decide

/-- C5: the Break-Point Scanner never selects a break from a rule match
inside a quoted run — every returned break offset arises from a rule
matching at a position whose quote state (tracking single and double
quotes) is "not in a quoted run" — and a quote character immediately
preceded by a backslash does not close the run. -/
theorem scanChunk_quote_aware :
    (∀ (text : List Char) (lang : String) (floor maxCols : Int) (initPs : PS)
        (res : ScanResult),
      scanChunk text lang floor maxCols initPs = some res →
      ∃ i r, r ∈ rulesFor lang ∧ r.pat.isPrefixOf (text.drop i) = true ∧
        bpOf r i = res.bp ∧ (quoteAuto text i).1 = false) ∧
    (∀ (text : List Char) (i : Nat) (c : Char),
      (quoteAuto text i).1 = true → text.get? i = some c →
      c = (quoteAuto text i).2 → 0 < i → text.get? (i - 1) = some '\\' →
      (quoteAuto text (i + 1)).1 = true) := by
  constructor
  · intro text lang floor maxCols initPs res h
    exact scanChunk_valid text lang floor maxCols initPs res h
  · intro text i c hin hget hc hi hbs
    rw [quoteAuto_succ]
    simp only [hget]
    simp only [hin, if_true]
    rw [if_neg ?h]
    case h =>
      rintro ⟨-, h2⟩
      rcases h2 with h2 | h2
      · omega
      · exact h2 hbs
    exact hin

theorem scanChunk_quote_aware_witness :
    ∃ i r, r ∈ rulesFor "c" ∧
      r.pat.isPrefixOf (("ab, 'cd, ef' gh".toList).drop i) = true ∧
      bpOf r i = (4 : Int) ∧ (quoteAuto "ab, 'cd, ef' gh".toList i).1 = false :=
  scanChunk_quote_aware.1 "ab, 'cd, ef' gh".toList "c" 0 7 ⟨0, -1⟩ ⟨4, ⟨0, -1⟩, true⟩
    (by decide)

/-- C1 (amended): for every line the Line Breaker splits, flattening the
emitted pieces (markup and markers aside) and removing the inserted line
breaks preserves every non-space character of the pristine line exactly
and in order; only space characters differ, because the continuation's
leading spaces (the spaces adjacent to a break point) are replaced by the
inserted continuation indentation. -/
theorem breakLine_preserves_nonspace (line : Line) (cols : Nat) (lang : String)
    (pieces : List Line) (h : breakLinePieces line cols lang = some pieces) :
    ((pieces.map plain).flatten).filter (fun c => c != ' ') =
      (plain line).filter (fun c => c != ' ') := by
  simp only [breakLinePieces] at h
  by_cases hfit : ((plain line).length : Int) ≤ effBudget lang cols
  · rw [if_pos hfit] at h
    cases h
  · rw [if_neg hfit] at h
    by_cases hemp : (breakLoop cols lang (effBudget lang cols) (leadingSpaces line)
        (defaultContIndent lang (plain line) (leadingSpaces line)) 10
        ⟨line, ⟨0, -1⟩, (plain line).length, []⟩).pieces.isEmpty = true
    · rw [if_pos hemp] at h
      cases h
    · rw [if_neg hemp] at h
      have hp := Option.some.inj h
      rw [← hp]
      have hcontent := breakLoop_content cols lang (effBudget lang cols) (leadingSpaces line)
        (defaultContIndent lang (plain line) (leadingSpaces line)) 10
        ⟨line, ⟨0, -1⟩, (plain line).length, []⟩
      simp only [List.map_nil, List.flatten_nil, List.filter_nil, List.nil_append]
        at hcontent
      rw [List.map_append, List.flatten_append, List.filter_append]
      simpa using hcontent

/-- C1 counterexample: on the C line `aaa bbbb && cccc` at 12 columns the
breaker splits before ` && `; re-padding strips the continuation's
original leading space, so flattening the output with the inserted
indentation stripped and breaks removed yields `aaa bbbb&& cccc`, not the
pristine line — a space adjacent to the break point is lost. -/
theorem breakLine_exact_flatten_cex :
    (breakLinePieces [⟨"aaa bbbb && cccc".toList, "", ""⟩] 12 "c").isSome = true ∧
    flattenPieces ((breakLinePieces [⟨"aaa bbbb && cccc".toList, "", ""⟩] 12 "c").getD [])
      ≠ plain [⟨"aaa bbbb && cccc".toList, "", ""⟩] := by
  decide

theorem breakLine_preserves_nonspace_witness :
    ((([[⟨"aaa bbbb".toList, "", ""⟩],
        [⟨List.replicate 4 ' ', "", ""⟩, ⟨"&& cccc".toList, "", ""⟩]] : List Line).map
        plain).flatten).filter (fun c => c != ' ') =
      (plain [⟨"aaa bbbb && cccc".toList, "", ""⟩]).filter (fun c => c != ' ') :=
  breakLine_preserves_nonspace [⟨"aaa bbbb && cccc".toList, "", ""⟩] 12 "c"
    [[⟨"aaa bbbb".toList, "", ""⟩],
     [⟨List.replicate 4 ' ', "", ""⟩, ⟨"&& cccc".toList, "", ""⟩]] (by decide)

/-- C2 (amended): every line the Line Breaker emits except the final
remainder has printable length at most the effective column budget (the
column count minus the marker reserve), and therefore at most the full
column count once the continuation marker is appended; the final
remainder is not bounded (it is whatever no further eligible break could
shrink), and a marker-bearing line can legitimately reach the full column
count, exceeding the effective budget. -/
theorem breakLine_budget (line : Line) (cols : Nat) (lang : String)
    (pieces : List Line) (h : breakLinePieces line cols lang = some pieces) :
    ∀ p ∈ pieces.dropLast,
      ((plain p).length : Int) ≤ effBudget lang cols ∧
      ((plain p).length : Int) + markerLen lang ≤ (cols : Int) := by
  have hbm : effBudget lang cols = (cols : Int) - markerLen lang := by
    unfold effBudget markerLen
    by_cases hbl : BACKSLASH_LANGS lang = true
    · rw [if_pos hbl, if_pos hbl]
    · rw [if_neg hbl, if_neg hbl]
      omega
  simp only [breakLinePieces] at h
  by_cases hfit : ((plain line).length : Int) ≤ effBudget lang cols
  · rw [if_pos hfit] at h
    cases h
  · rw [if_neg hfit] at h
    by_cases hemp : (breakLoop cols lang (effBudget lang cols) (leadingSpaces line)
        (defaultContIndent lang (plain line) (leadingSpaces line)) 10
        ⟨line, ⟨0, -1⟩, (plain line).length, []⟩).pieces.isEmpty = true
    · rw [if_pos hemp] at h
      cases h
    · rw [if_neg hemp] at h
      have hp := Option.some.inj h
      rw [← hp, List.dropLast_concat]
      intro p hmem
      have hbound := breakLoop_bounded cols lang (effBudget lang cols) (leadingSpaces line)
        (defaultContIndent lang (plain line) (leadingSpaces line)) 10
        ⟨line, ⟨0, -1⟩, (plain line).length, []⟩
        (by intro q hq; exact absurd hq (by simp)) p hmem
      refine ⟨hbound, ?_⟩
      rw [hbm] at hbound
      omega

/-- C2 counterexample: breaking the bash line `echo ab cdefgh` at 10
columns (effective budget 8) emits `echo ab`, whose printable length with
the appended ` \` marker is 9 > 8, and leaves the final remainder
`    cdefgh` of length 10 > 8 — while no space-separated token of the
line exceeds the budget 8. -/
theorem breakLine_budget_cex :
    breakLinePieces [⟨"echo ab cdefgh".toList, "", ""⟩] 10 "bash" =
      some [[⟨"echo ab".toList, "", ""⟩],
            [⟨List.replicate 4 ' ', "", ""⟩, ⟨"cdefgh".toList, "", ""⟩]] ∧
    ¬((("echo ab".toList).length : Int) + markerLen "bash" ≤ effBudget "bash" 10) ∧
    ¬(((plain [⟨List.replicate 4 ' ', "", ""⟩, ⟨"cdefgh".toList, "", ""⟩]).length : Int) ≤
        effBudget "bash" 10) ∧
    ("echo".toList.length ≤ 8 ∧ "ab".toList.length ≤ 8 ∧ "cdefgh".toList.length ≤ 8) ∧
    "echo ab cdefgh".toList =
      "echo".toList ++ [' '] ++ "ab".toList ++ [' '] ++ "cdefgh".toList := by
  decide

theorem breakLine_budget_witness :
    ((plain [⟨"echo ab".toList, "", ""⟩]).length : Int) ≤ effBudget "bash" 10 ∧
    ((plain [⟨"echo ab".toList, "", ""⟩]).length : Int) + markerLen "bash" ≤ (10 : Int) :=
  breakLine_budget [⟨"echo ab cdefgh".toList, "", ""⟩] 10 "bash"
    [[⟨"echo ab".toList, "", ""⟩],
     [⟨List.replicate 4 ' ', "", ""⟩, ⟨"cdefgh".toList, "", ""⟩]] (by decide)
    [⟨"echo ab".toList, "", ""⟩] (by decide)

/-- C4: a formatting pass snapshots a block's content at most once — an
existing snapshot is never overwritten, and a pristine block either stays
snapshot-free (no mutation) or receives its pre-pass content as the
snapshot — and, for a pristine block at a fixed measured width and indent
factor, restoring the mutated block from its snapshot and reformatting
produces exactly the same block as the single pass from pristine (format
after format equals one format). -/
theorem formatBlock_idempotent (cols fnum fden : Nat) (b : Block) :
    (∀ o, b.original = some o → (formatBlock b cols fnum fden).original = some o) ∧
    (b.original = none →
      (formatBlock b cols fnum fden).original = none ∨
        (formatBlock b cols fnum fden).original = some b.lines) ∧
    (b.original = none →
      formatBlock (restoreBlock (formatBlock b cols fnum fden)) cols fnum fden =
        formatBlock b cols fnum fden) := by
  refine ⟨?_, ?_, ?_⟩
  · intro o ho
    simp only [formatBlock]
    by_cases h1 : SKIP_LANGS (lowerString b.lang) = true
    · rw [if_pos h1]
      exact ho
    · rw [if_neg h1]
      by_cases h2 : 500 < b.lines.length
      · rw [if_pos h2]
        exact ho
      · rw [if_neg h2]
        by_cases h3 : (formatLines (lowerString b.lang) cols fnum fden b.lines).1 = true
        · rw [if_pos h3]
          simp only [ho]
        · rw [if_neg h3]
          exact ho
  · intro h0
    simp only [formatBlock]
    by_cases h1 : SKIP_LANGS (lowerString b.lang) = true
    · rw [if_pos h1]
      exact Or.inl h0
    · rw [if_neg h1]
      by_cases h2 : 500 < b.lines.length
      · rw [if_pos h2]
        exact Or.inl h0
      · rw [if_neg h2]
        by_cases h3 : (formatLines (lowerString b.lang) cols fnum fden b.lines).1 = true
        · rw [if_pos h3]
          simp only [h0]
          exact Or.inr trivial
        · rw [if_neg h3]
          exact Or.inl h0
  · intro h0
    have hrest : restoreBlock b = b := by
      simp only [restoreBlock, h0]
    by_cases h1 : SKIP_LANGS (lowerString b.lang) = true
    · have hb : formatBlock b cols fnum fden = b := by
        simp only [formatBlock]
        rw [if_pos h1]
      rw [hb, hrest, hb]
    · by_cases h2 : 500 < b.lines.length
      · have hb : formatBlock b cols fnum fden = b := by
          simp only [formatBlock]
          rw [if_neg h1, if_pos h2]
        rw [hb, hrest, hb]
      · by_cases h3 : (formatLines (lowerString b.lang) cols fnum fden b.lines).1 = true
        · have hb : formatBlock b cols fnum fden =
              ⟨b.lang, (formatLines (lowerString b.lang) cols fnum fden b.lines).2,
                some b.lines⟩ := by
            simp only [formatBlock]
            rw [if_neg h1, if_neg h2, if_pos h3, h0]
          have hr2 : restoreBlock
              ⟨b.lang, (formatLines (lowerString b.lang) cols fnum fden b.lines).2,
                some b.lines⟩ = ⟨b.lang, b.lines, some b.lines⟩ := rfl
          rw [hb, hr2]
          simp only [formatBlock]
          rw [if_neg h1, if_neg h2, if_pos h3]
        · have hb : formatBlock b cols fnum fden = b := by
            simp only [formatBlock]
            rw [if_neg h1, if_neg h2, if_neg h3]
          rw [hb, hrest, hb]

theorem formatBlock_idempotent_witness :
    formatBlock (restoreBlock (formatBlock
        ⟨"c", [[⟨"int f(aaa, bbb, ccc, ddd, eee);".toList, "", ""⟩]], none⟩ 20 1 1))
        20 1 1 =
      formatBlock ⟨"c", [[⟨"int f(aaa, bbb, ccc, ddd, eee);".toList, "", ""⟩]], none⟩
        20 1 1 :=
  (formatBlock_idempotent 20 1 1
    ⟨"c", [[⟨"int f(aaa, bbb, ccc, ddd, eee);".toList, "", ""⟩]], none⟩).2.2 rfl

/-- Scenario fixture: a C block whose minimum structural indent unit is 4
(levels 4 and 8) with one line hand-aligned under the previous line's
open-paren column 13. -/
def blockC6 : List Line :=
  [[⟨"int f() \x7b".toList, "", ""⟩],
   [⟨"    int x = g(aaa,".toList, "", ""⟩],
   [⟨"             bbb);".toList, "", ""⟩],
   [⟨"        return x;".toList, "", ""⟩],
   [⟨"\x7d".toList, "", ""⟩]]

/-- The scenario block after compression at 30 columns: structural levels
4 and 8 halved to 2 and 4, the aligned line shifted by the same absolute
2 spaces its anchor line lost (column 13 to column 11, still under the
open paren). -/
def blockC6compressed : List Line :=
  [[⟨"int f() \x7b".toList, "", ""⟩],
   [⟨"  int x = g(aaa,".toList, "", ""⟩],
   [⟨"           bbb);".toList, "", ""⟩],
   [⟨"    return x;".toList, "", ""⟩],
   [⟨"\x7d".toList, "", ""⟩]]

/-- C6: a line the indent factor classifies as alignment-indented has
exactly the previous line's absolute removed-space count stripped, not an
amount recomputed from the factor; in particular, on a block with minimum
unit 4 at 30 columns (below the aggressive threshold, factor 2/4) every
structural level is halved (4 to 2 and 8 to 4, never below 2) while the
line hand-aligned under the previous line's open-paren column moves with
its anchor, keeping the alignment. -/
theorem applyIndentFactor_alignment :
    (∀ (fnum fden step : Nat) (l : Line) (rest : List Line) (st : IndSt),
      0 < (max (searchNonWS (plain l)) 0).toNat →
      classifyAligned st step ((max (searchNonWS (plain l)) 0).toNat) = true →
      (applyIndentLoop fnum fden step (l :: rest) st).1.head? =
        some (if 0 < st.prevRemoved then removeNSpaces l st.prevRemoved.toNat else l)) ∧
    detectIndentStep blockC6 = 4 ∧
    computeCompressedStep (detectIndentStep blockC6) 30 = 2 ∧
    applyIndentFactor blockC6 (computeCompressedStep (detectIndentStep blockC6) 30)
        (detectIndentStep blockC6) = (blockC6compressed, true) := by
  refine ⟨?_, by decide, by decide, by decide⟩
  intro fnum fden step l rest st hsp hal
  simp only [applyIndentLoop]
  rw [if_pos hsp, hal]
  simp

theorem applyIndentFactor_alignment_witness :
    (applyIndentLoop 1 2 0 [[⟨" x".toList, "", ""⟩]]
        ⟨some ['a', 'b'], 0, 2, false, false⟩).1.head? =
      some (if 0 < (⟨some ['a', 'b'], 0, 2, false, false⟩ : IndSt).prevRemoved then
          removeNSpaces [⟨" x".toList, "", ""⟩]
            ((⟨some ['a', 'b'], 0, 2, false, false⟩ : IndSt).prevRemoved.toNat)
        else [⟨" x".toList, "", ""⟩]) :=
  applyIndentFactor_alignment.1 1 2 0 [⟨" x".toList, "", ""⟩] []
    ⟨some ['a', 'b'], 0, 2, false, false⟩ (by decide) (by decide)
